import Mathlib

/-!
Verification development for `labeled_image_transfer.py`.

The program reads filenames from a CSV table, transforms each exported name
back to an original `.tif` basename, indexes a directory tree by filename,
resolves the transformed names against the index, and copies matches into a
destination directory with collision-safe naming.

Strings are modelled as `List Char` (`Str`).  Paths follow the POSIX
convention used by `os.path` on the test platform: the separator is `'/'`.
Lowercasing is modelled by `Char.toLower`, the ASCII case fold, matching the
behaviour of `str.lower` on ASCII data; `str.strip()` is modelled as
stripping the standard whitespace characters recognised by
`Char.isWhitespace`.  The filesystem is modelled as a finite tree of
directories (`FSTree`), each carrying a readability flag so that the
behaviour of `os.walk` (which silently ignores `scandir` errors when
`onerror` is `None`, the default) can be stated.  A destination directory is
modelled as an association list from filename to file content (`Store`);
`shutil.copy2` becomes a store update.
-/

abbrev Str : Type := List Char

/-- Character list of a string literal. -/
def str (s : String) : Str := s.data

/-- The double-quote character stripped by `_normalize`. -/
def dquote : Char := Char.ofNat 34

/-- The single-quote character stripped by `_normalize`. -/
def squote : Char := Char.ofNat 39

/-- Drop the longest run of characters satisfying `p` from the end of `l`
(the second half of Python `str.strip`). -/
def stripTrailing (p : Char → Bool) (l : Str) : Str :=
  (l.reverse.dropWhile p).reverse

/-- Python `str.strip(chars)`: remove all leading and trailing characters
satisfying `p`. -/
def stripBoth (p : Char → Bool) (l : Str) : Str :=
  stripTrailing p (l.dropWhile p)

/-- Python `str.strip()` with no argument: strip surrounding whitespace. -/
def stripWs (l : Str) : Str := stripBoth Char.isWhitespace l

/-- Model of `os.path.basename` (POSIX): the suffix after the last `'/'`. -/
def basename (l : Str) : Str :=
  (l.reverse.takeWhile (fun c => decide (c ≠ '/'))).reverse

/-- ASCII lowercasing of a string, modelling `str.lower`. -/
def lowerStr (l : Str) : Str := l.map Char.toLower

/-- Apply lowercasing exactly when the `case_insensitive` flag is set. -/
def lowerIf (ci : Bool) (l : Str) : Str := if ci then lowerStr l else l

/-- Model of `_normalize` (lines 10-14): strip whitespace, then all
surrounding double quotes, then all surrounding single quotes, keep the
basename, and lowercase when `case_insensitive`. -/
def _normalize (nm : Str) (case_insensitive : Bool) : Str :=
  lowerIf case_insensitive
    (basename
      (stripBoth (fun c => decide (c = squote))
        (stripBoth (fun c => decide (c = dquote))
          (stripWs nm))))

/-- Model of `os.path.splitext` restricted to separator-free basenames
(the program only ever applies it after `os.path.basename`): split at the
last dot, unless every character before that dot is itself a dot (so
`.bashrc`-style names keep their extension-less form). -/
def splitext (l : Str) : Str × Str :=
  match l.reverse.findIdx? (fun c => decide (c = '.')) with
  | none => (l, [])
  | some k =>
    if (l.take (l.length - 1 - k)).all (fun c => decide (c = '.')) then (l, [])
    else (l.take (l.length - 1 - k), l.drop (l.length - 1 - k))

/-- Leftmost position of `l` whose suffix satisfies `p`, the search scheme of
both `re.search` (for match start) and `str.find`. -/
def findPos (p : Str → Bool) : Str → Option Nat
  | [] => if p [] then some 0 else none
  | c :: t => if p (c :: t) then some 0 else (findPos p t).map (· + 1)

/-- The image extensions of the Roboflow export pattern
`_(jpg|jpeg|png|tif|tiff)\.rf\.` (line 32). -/
def roboflowExts : List Str :=
  [str "jpg", str "jpeg", str "png", str "tif", str "tiff"]

/-- Whether the Roboflow export pattern `_<ext>.rf.` matches at the head of
`l`; `re.search` succeeds at a position exactly when some alternative
followed by the literal `.rf.` is a prefix of the remaining text. -/
def rfMarkerAt (l : Str) : Bool :=
  roboflowExts.any (fun e => List.isPrefixOf ('_' :: (e ++ str ".rf.")) l)

/-- Whether the legacy substring `".jpg"` occurs at the head of `l`. -/
def jpgAt (l : Str) : Bool := List.isPrefixOf (str ".jpg") l

/-- Model of `_csv_name_to_tif` (lines 16-45).  `base` is the basename of
the argument, `lower` its lowercase form; rule 1 splits at the leftmost
Roboflow marker, rule 2 at the first occurrence of `".jpg"`, and rule 3
swaps the extension. -/
def _csv_name_to_tif (bn : Str) : Str :=
  match findPos rfMarkerAt (lowerStr (basename bn)) with
  | some i => (basename bn).take i ++ str ".tif"
  | none =>
    match findPos jpgAt (lowerStr (basename bn)) with
    | some i => (basename bn).take i ++ str ".tif"
    | none => (splitext (basename bn)).1 ++ str ".tif"

/-- The filename index: normalized basename to the full paths carrying it,
in insertion order (Python `dict` with `setdefault`). -/
abbrev Index : Type := List (Str × List Str)

/-- Model of `index.get(key, [])`. -/
def lookupIdx : Index → Str → List Str
  | [], _ => []
  | (k, ps) :: rest, t => if k = t then ps else lookupIdx rest t

/-- Model of `index.setdefault(key, []).append(path)`. -/
def insertIdx : Index → Str → Str → Index
  | [], k, p => [(k, [p])]
  | (k0, ps) :: rest, k, p =>
    if k0 = k then (k0, ps ++ [p]) :: rest else (k0, ps) :: insertIdx rest k p

mutual
/-- A directory tree: name, readability of the directory itself, regular
files directly inside, and subdirectories. -/
inductive FSTree : Type where
  | dir (nm : Str) (readable : Bool) (files : List Str) (subs : FSForest)
/-- A list of sibling subdirectories. -/
inductive FSForest : Type where
  | nil
  | cons (t : FSTree) (ts : FSForest)
end

/-- Name of a directory node. -/
def FSTree.nm : FSTree → Str
  | .dir n _ _ _ => n

/-- Model of `os.path.join` for a relative second component. -/
def joinPath (a b : Str) : Str := a ++ '/' :: b

mutual
/-- Model of `os.walk(path)` with the default `onerror=None`: a readable
directory yields its `(dirpath, filenames)` entry followed by the entries of
its subtrees; an unreadable directory raises inside `scandir`, the error is
swallowed, and nothing at all is yielded for that branch. -/
def walk (path : Str) : FSTree → List (Str × List Str)
  | .dir _ r files subs => if r then (path, files) :: walkForest path subs else []
/-- Walk each subdirectory of a directory whose path is `path`. -/
def walkForest (path : Str) : FSForest → List (Str × List Str)
  | .nil => []
  | .cons t ts => walk (joinPath path t.nm) t ++ walkForest path ts
end

/-- Fold the walk output into the index, keying each file by its
(conditionally lowercased) name, lines 111-115. -/
def buildIndexFromWalk (ci : Bool) (entries : List (Str × List Str)) : Index :=
  entries.foldl
    (fun idx pr =>
      pr.2.foldl (fun idx2 f => insertIdx idx2 (lowerIf ci f) (joinPath pr.1 f)) idx)
    []

/-- Model of `build_filename_index` (lines 104-116). -/
def build_filename_index (search_path : Str) (case_insensitive : Bool)
    (t : FSTree) : Index :=
  buildIndexFromWalk case_insensitive (walk search_path t)

/-- Error-aware view of the indexer.  The Python body contains no `raise`
and `os.walk` with the default `onerror=None` swallows every `scandir`
error, the root directory included, so the function is total and always
returns its index. -/
def buildFilenameIndexE (search_path : Str) (case_insensitive : Bool)
    (t : FSTree) : Except Unit Index :=
  Except.ok (build_filename_index search_path case_insensitive t)

/-- A destination directory state: filename to file content (the content is
modelled as the source path the file was copied from). -/
abbrev Store : Type := List (Str × Str)

/-- First-match lookup in a destination directory, modelling
`os.path.exists` (presence) and file contents. -/
def lookupStore : Store → Str → Option Str
  | [], _ => none
  | (k, v) :: rest, nm => if k = nm then some v else lookupStore rest nm

/-- Write a file: replace the entry if the name exists, else append it. -/
def setStore : Store → Str → Str → Store
  | [], nm, c => [(nm, c)]
  | (k, v) :: rest, nm, c =>
    if k = nm then (k, c) :: rest else (k, v) :: setStore rest nm c

/-- Model of `os.path.exists` inside the destination directory. -/
def existsName (S : Store) (nm : Str) : Bool := (lookupStore S nm).isSome

/-- Decimal digit character. -/
def digitChar (d : Nat) : Char := Char.ofNat (48 + d)

/-- Fuelled decimal printer (the fuel only bounds the recursion depth). -/
def natToDecAux : Nat → Nat → Str
  | 0, _ => []
  | fuel + 1, n =>
    if n < 10 then [digitChar n]
    else natToDecAux fuel (n / 10) ++ [digitChar (n % 10)]

/-- Decimal representation of `n`, as produced by the f-string `f"[zero]_[i][ext]"`
interpolation of a natural number. -/
def natToDec (n : Nat) : Str := natToDecAux (n + 1) n

/-- Value of a decimal digit string (left inverse of `natToDec`). -/
def decVal (l : Str) : Nat := l.foldl (fun acc c => 10 * acc + (c.toNat - 48)) 0

/-- The collision candidate `f"{base}_{i}{ext}"` of line 167. -/
def candName (stem ext : Str) (i : Nat) : Str :=
  stem ++ '_' :: (natToDec i ++ ext)

/-- The `itertools.count(1)` collision loop of lines 166-170, fuelled: try
`candName stem ext n`, advancing while the name exists.  The fuel is chosen
large enough (`|S| + 1` candidates) that a free name is always reached. -/
def findFree (S : Store) (stem ext : Str) : Nat → Nat → Nat
  | 0, n => n
  | fuel + 1, n =>
    if existsName S (candName stem ext n) then findFree S stem ext fuel (n + 1)
    else n

/-- Destination filename chosen by the Copy Engine (lines 163-170): the
proposed name itself, unless overwrite is disabled and the name exists, in
which case the first free suffixed candidate. -/
def destName (S : Store) (overwrite : Bool) (nm : Str) : Str :=
  if overwrite = false ∧ existsName S nm = true then
    candName (splitext nm).1 (splitext nm).2
      (findFree S (splitext nm).1 (splitext nm).2 (S.length + 1) 1)
  else nm

/-- One `shutil.copy2` into the destination directory (lines 163-175):
write `content` under the collision-resolved name. -/
def copyOne (S : Store) (overwrite : Bool) (nm content : Str) : Store :=
  setStore S (destName S overwrite nm) content

/-- Model of the Resolver step of `copy_files` (lines 140-150): direct
lookup, then a single `.tiff` retry when the direct lookup is empty and the
target ends in `.tif`. -/
def resolve (idx : Index) (t : Str) : List Str :=
  let m := lookupIdx idx t
  if m.isEmpty && List.isSuffixOf (str ".tif") t then
    lookupIdx idx (t.take (t.length - 4) ++ str ".tiff")
  else m

/-- Observable side effects of the pipeline other than destination-file
writes (which the `Store` captures directly). -/
inductive Eff : Type where
  | buildIndex
  | ensureDir
  | copyFile (src : Str)

/-- Copy every resolved source path of one target (lines 152-177, flat
destination): each copy lands at the collision-resolved name of the source
basename and bumps the copied counter. -/
def copyMatches (overwrite : Bool) :
    List Str → Store → Nat → List Eff → Store × Nat × List Eff
  | [], S, n, es => (S, n, es)
  | src :: rest, S, n, es =>
    copyMatches overwrite rest (copyOne S overwrite (basename src) src) (n + 1)
      (es ++ [Eff.copyFile src])

/-- Iterate `copy_files` over the target names. -/
def copyFilesLoop (idx : Index) (overwrite : Bool) :
    List Str → Store → Nat → List Eff → Store × Nat × List Eff
  | [], S, n, es => (S, n, es)
  | t :: ts, S, n, es =>
    let r := copyMatches overwrite (resolve idx t) S n es
    copyFilesLoop idx overwrite ts r.1 r.2.1 r.2.2

/-- Model of `copy_files` (lines 121-179) with `keep_dir_structure=False`
(the flat-destination configuration; the claims under verification do not
involve structure preservation).  `ensure_dir(destination_path)` on line 137
runs before any copy, so the effect log opens with `ensureDir`. -/
def copy_files (targets : List Str) (idx : Index) (dest : Store)
    (overwrite : Bool) : Store × Nat × List Eff :=
  copyFilesLoop idx overwrite targets dest 0 [Eff.ensureDir]

/-- Model of `find_and_copy_from_csv` (lines 181-223) downstream of CSV
extraction: `raw_targets` is the set of normalized names the extractor
produced (modelled as a list; Python set iteration order is arbitrary and
`List.dedup` models the set's duplicate collapsing).  An empty extraction
returns at line 199, before the index is built and before `copy_files`
(and hence `ensure_dir`) runs. -/
def find_and_copy_from_csv (raw_targets : List Str) (case_insensitive : Bool)
    (overwrite : Bool) (search_path : Str) (t : FSTree) (dest : Store) :
    Store × Nat × List Eff :=
  if raw_targets = [] then (dest, 0, [])
  else
    let tif_targets :=
      (raw_targets.map (fun nm => lowerIf case_insensitive (_csv_name_to_tif nm))).dedup
    let idx := build_filename_index search_path case_insensitive t
    let r := copy_files tif_targets idx dest overwrite
    (r.1, r.2.1, Eff.buildIndex :: r.2.2)

/-- The pipeline seen from the CSV extractor: a `ConfigurationError`
(`ValueError` in the source) raised during extraction propagates, so nothing
downstream runs. -/
def findAndCopyE (extracted : Except Unit (List Str)) (case_insensitive : Bool)
    (overwrite : Bool) (search_path : Str) (t : FSTree) (dest : Store) :
    Except Unit (Store × Nat × List Eff) :=
  match extracted with
  | Except.error e => Except.error e
  | Except.ok raw =>
    Except.ok (find_and_copy_from_csv raw case_insensitive overwrite search_path t dest)

/-- The `LIKELY_FILENAME_COLUMNS` set of line 8. -/
def likelyFilenameColumns : List Str := [str "filename"]

/-- Whether a header cell is a likely filename column
(`cand.lower() in LIKELY_FILENAME_COLUMNS`, line 80). -/
def isLikelyColumn (fn : Str) : Bool := likelyFilenameColumns.contains (lowerStr fn)

/-- The fallback column choice of lines 77-84: the first likely header,
else the first header if any. -/
def pickFallback (fieldnames : List Str) : Option Str :=
  match fieldnames.find? isLikelyColumn with
  | some c => some c
  | none => fieldnames.head?

/-- The `use_col` variable of lines 73-84: a configured column is used only
when non-empty (Python truthiness of `column`) and present among the
headers; otherwise the fallback choice applies. -/
def useCol (column : Option Str) (fieldnames : List Str) : Option Str :=
  match column with
  | some c => if c ≠ [] ∧ c ∈ fieldnames then some c else pickFallback fieldnames
  | none => pickFallback fieldnames

/-- Model of the column selection and `ValueError` of
`load_filenames_from_csv` (lines 72-87).  Headers are stripped first;
`if not use_col` raises when no column was selected or the selected name is
the empty string. -/
def chooseColumn (column : Option Str) (rawFieldnames : List Str) :
    Except Unit Str :=
  match useCol column (rawFieldnames.map stripWs) with
  | some c => if c = [] then Except.error () else Except.ok c
  | none => Except.error ()

/-! ### Character-level helper lemmas -/

theorem charToNat_ofNat (n : Nat) (h : n < 0xd800) : (Char.ofNat n).toNat = n := by
  rw [Char.ofNat, dif_pos (Or.inl h)]
  rfl

theorem char_eq_iff (c d : Char) : c = d ↔ c.toNat = d.toNat := by
  constructor
  · intro h
    rw [h]
  · intro h
    rw [← Char.ofNat_toNat c, h, Char.ofNat_toNat]

theorem toLower_of_upper (c : Char) (h : 65 ≤ c.toNat ∧ c.toNat ≤ 90) :
    Char.toLower c = Char.ofNat (c.toNat + 32) := by
  rw [Char.toLower]
  exact if_pos ⟨h.1, h.2⟩

theorem toLower_toNat_of_upper (c : Char) (h : 65 ≤ c.toNat ∧ c.toNat ≤ 90) :
    (Char.toLower c).toNat = c.toNat + 32 := by
  rw [toLower_of_upper c h, charToNat_ofNat]
  omega

theorem toLower_eq_self (c : Char) (h : ¬(65 ≤ c.toNat ∧ c.toNat ≤ 90)) :
    Char.toLower c = c := by
  rw [Char.toLower]
  exact if_neg h

theorem toLower_idem (c : Char) :
    Char.toLower (Char.toLower c) = Char.toLower c := by
  by_cases h : 65 ≤ c.toNat ∧ c.toNat ≤ 90
  · have h2 := toLower_toNat_of_upper c h
    exact toLower_eq_self _ (by omega)
  · rw [toLower_eq_self c h, toLower_eq_self c h]

theorem isWhitespace_toNat (c : Char) :
    c.isWhitespace =
      decide (c.toNat = 32 ∨ c.toNat = 9 ∨ c.toNat = 13 ∨ c.toNat = 10) := by
  have h32 : (' ' : Char).toNat = 32 := rfl
  have h9 : ('\t' : Char).toNat = 9 := rfl
  have h13 : ('\r' : Char).toNat = 13 := rfl
  have h10 : ('\n' : Char).toNat = 10 := rfl
  simp only [Char.isWhitespace, char_eq_iff, h32, h9, h13, h10]
  by_cases a : c.toNat = 32 <;> by_cases b : c.toNat = 9 <;>
    by_cases d : c.toNat = 13 <;> by_cases e : c.toNat = 10 <;>
    simp [a, b, d, e]

theorem isWhitespace_toLower (c : Char) :
    (Char.toLower c).isWhitespace = c.isWhitespace := by
  by_cases h : 65 ≤ c.toNat ∧ c.toNat ≤ 90
  · have h2 := toLower_toNat_of_upper c h
    rw [isWhitespace_toNat, isWhitespace_toNat]
    have e1 : ¬((Char.toLower c).toNat = 32 ∨ (Char.toLower c).toNat = 9 ∨
        (Char.toLower c).toNat = 13 ∨ (Char.toLower c).toNat = 10) := by omega
    have e2 : ¬(c.toNat = 32 ∨ c.toNat = 9 ∨ c.toNat = 13 ∨ c.toNat = 10) := by omega
    simp [e1, e2]
  · rw [toLower_eq_self c h]

theorem toLower_toNat_ne {c : Char} {v : Nat} (hv : v < 97) (h : c.toNat ≠ v) :
    (Char.toLower c).toNat ≠ v := by
  by_cases hu : 65 ≤ c.toNat ∧ c.toNat ≤ 90
  · have h2 := toLower_toNat_of_upper c hu
    omega
  · rw [toLower_eq_self c hu]
    exact h

/-! ### List-level helper lemmas -/

theorem dropWhile_eq_self_of (p : Char → Bool) (l : Str)
    (h : ∀ x ∈ l, p x = false) : l.dropWhile p = l := by
  cases l with
  | nil => rfl
  | cons a t => simp [List.dropWhile_cons, h a (by simp)]

theorem dropWhile_idem (p : Char → Bool) (l : Str) :
    (l.dropWhile p).dropWhile p = l.dropWhile p := by
  induction l with
  | nil => rfl
  | cons a t ih =>
    by_cases h : p a
    · simp [List.dropWhile_cons, h, ih]
    · simp [List.dropWhile_cons, h]

theorem mem_dropWhile (p : Char → Bool) (l : Str) {x : Char}
    (h : x ∈ l.dropWhile p) : x ∈ l :=
  (List.dropWhile_suffix p).subset h

theorem mem_stripTrailing (p : Char → Bool) (l : Str) {x : Char}
    (h : x ∈ stripTrailing p l) : x ∈ l := by
  rw [stripTrailing, List.mem_reverse] at h
  exact List.mem_reverse.mp (mem_dropWhile p l.reverse h)

theorem mem_stripBoth (p : Char → Bool) (l : Str) {x : Char}
    (h : x ∈ stripBoth p l) : x ∈ l :=
  mem_dropWhile p l (mem_stripTrailing p (l.dropWhile p) h)

theorem stripTrailing_eq_self_of (p : Char → Bool) (l : Str)
    (h : ∀ x ∈ l, p x = false) : stripTrailing p l = l := by
  rw [stripTrailing, dropWhile_eq_self_of p l.reverse
    (fun x hx => h x (List.mem_reverse.mp hx)), List.reverse_reverse]

theorem stripBoth_eq_self_of (p : Char → Bool) (l : Str)
    (h : ∀ x ∈ l, p x = false) : stripBoth p l = l := by
  rw [stripBoth, dropWhile_eq_self_of p l h, stripTrailing_eq_self_of p l h]

theorem head_not_of_dropWhile_eq_self (p : Char → Bool) (a : Char) (t : Str)
    (h : (a :: t).dropWhile p = a :: t) : p a = false := by
  by_cases hp : p a
  · rw [List.dropWhile_cons, if_pos hp] at h
    have hlen : (t.dropWhile p).length ≤ t.length :=
      (List.dropWhile_suffix p).sublist.length_le
    have := congrArg List.length h
    simp at this
    omega
  · simpa using hp

theorem stripTrailing_prefix (p : Char → Bool) (l : Str) :
    stripTrailing p l <+: l := by
  rw [stripTrailing]
  have h : l.reverse.dropWhile p <:+ l.reverse := List.dropWhile_suffix p
  have h2 : (l.reverse.dropWhile p).reverse <+: l.reverse.reverse :=
    List.reverse_prefix.mpr h
  simpa using h2

theorem dropWhile_stripTrailing_eq_self (p : Char → Bool) (l : Str)
    (h : l.dropWhile p = l) : (stripTrailing p l).dropWhile p = stripTrailing p l := by
  rcases he : stripTrailing p l with _ | ⟨a, t⟩
  · rfl
  · have hpre : (a :: t) <+: l := by
      rw [← he]
      exact stripTrailing_prefix p l
    rcases hpre with ⟨r, hr⟩
    rw [← hr] at h
    have ha : p a = false := by
      simp only [List.cons_append] at h
      exact head_not_of_dropWhile_eq_self p a (t ++ r) h
    simp [List.dropWhile_cons, ha]

theorem stripBoth_idem (p : Char → Bool) (l : Str) :
    stripBoth p (stripBoth p l) = stripBoth p l := by
  rw [stripBoth, stripBoth]
  have h1 : (l.dropWhile p).dropWhile p = l.dropWhile p := dropWhile_idem p l
  rw [dropWhile_stripTrailing_eq_self p (l.dropWhile p) h1]
  have h2 : stripTrailing p (stripTrailing p (l.dropWhile p))
      = stripTrailing p (l.dropWhile p) := by
    rw [stripTrailing, stripTrailing, List.reverse_reverse, dropWhile_idem]
  exact h2

theorem stripBoth_map (p : Char → Bool) (f : Char → Char) (l : Str) :
    stripBoth p (l.map f) = (stripBoth (fun c => p (f c)) l).map f := by
  rw [stripBoth, stripBoth, stripTrailing, stripTrailing]
  rw [List.dropWhile_map, ← List.map_reverse, List.dropWhile_map, List.map_reverse]
  rfl

theorem takeWhile_eq_self_of (p : Char → Bool) (l : Str)
    (h : ∀ x ∈ l, p x = true) : l.takeWhile p = l := by
  induction l with
  | nil => rfl
  | cons a t ih =>
    rw [List.takeWhile_cons, if_pos (h a (by simp))]
    rw [ih (fun x hx => h x (by simp [hx]))]

theorem takeWhile_append_of (p : Char → Bool) (xs ys : Str) (a : Char)
    (hx : ∀ x ∈ xs, p x = true) (ha : p a = false) :
    (xs ++ a :: ys).takeWhile p = xs := by
  induction xs with
  | nil => simp [List.takeWhile_cons, ha]
  | cons b bs ih =>
    rw [List.cons_append, List.takeWhile_cons, if_pos (hx b (by simp))]
    rw [ih (fun x hxm => hx x (by simp [hxm]))]

theorem basename_eq_self_of (l : Str) (h : ('/' : Char) ∉ l) : basename l = l := by
  rw [basename, takeWhile_eq_self_of, List.reverse_reverse]
  intro x hx
  simp only [decide_eq_true_eq]
  intro hxe
  exact h (by rw [← hxe]; exact List.mem_reverse.mp hx)

theorem basename_joinPath (r f : Str) (h : ('/' : Char) ∉ f) :
    basename (joinPath r f) = f := by
  rw [joinPath, basename]
  have : (r ++ '/' :: f).reverse = f.reverse ++ '/' :: r.reverse := by
    simp
  rw [this, takeWhile_append_of _ _ _ _ ?_ (by simp), List.reverse_reverse]
  intro x hx
  simp only [decide_eq_true_eq]
  intro hxe
  exact h (by rw [← hxe]; exact List.mem_reverse.mp hx)

/-! ### findPos lemmas -/

theorem findPos_eq_some_of (p : Str → Bool) :
    ∀ (l : Str) (i : Nat), i ≤ l.length → p (l.drop i) = true →
      (∀ j, j < i → p (l.drop j) = false) → findPos p l = some i := by
  intro l
  induction l with
  | nil =>
    intro i hi hp _
    have h0 : i = 0 := by simpa using hi
    subst h0
    simpa [findPos] using hp
  | cons c t ih =>
    intro i hi hp hj
    cases i with
    | zero => simpa [findPos] using hp
    | succ i' =>
      have h0 : p (c :: t) = false := by simpa using hj 0 (Nat.succ_pos i')
      rw [findPos, if_neg (by simp [h0])]
      rw [ih i' (by simpa using hi) (by simpa using hp)
        (fun j hjlt => by simpa using hj (j + 1) (by omega))]
      rfl

theorem findPos_eq_none_of (p : Str → Bool) :
    ∀ l : Str, (∀ j, p (l.drop j) = false) → findPos p l = none := by
  intro l
  induction l with
  | nil =>
    intro h
    simpa [findPos] using h 0
  | cons c t ih =>
    intro h
    rw [findPos, if_neg (by simpa using h 0)]
    rw [ih (fun j => by simpa using h (j + 1))]
    rfl

theorem rfMarkerAt_nil : rfMarkerAt [] = false := by decide

theorem jpgAt_nil : jpgAt [] = false := by decide

/-! ### Store lemmas -/

theorem lookupStore_set_self (S : Store) (nm c : Str) :
    lookupStore (setStore S nm c) nm = some c := by
  induction S with
  | nil => simp [setStore, lookupStore]
  | cons kv rest ih =>
    by_cases h : kv.1 = nm
    · simp [setStore, lookupStore, h]
    · simp [setStore, lookupStore, h, ih]

theorem lookupStore_set_ne (S : Store) (nm c nm' : Str) (h : nm' ≠ nm) :
    lookupStore (setStore S nm c) nm' = lookupStore S nm' := by
  induction S with
  | nil => simp [setStore, lookupStore, Ne.symm h]
  | cons kv rest ih =>
    by_cases hk : kv.1 = nm
    · simp [setStore, lookupStore, hk, Ne.symm h]
    · by_cases hk' : kv.1 = nm'
      · simp [setStore, lookupStore, hk, hk', h]
      · simp [setStore, lookupStore, hk, hk', ih]

theorem lookupStore_isSome_iff_mem (S : Store) (nm : Str) :
    (lookupStore S nm).isSome = true ↔ nm ∈ S.map Prod.fst := by
  induction S with
  | nil => simp [lookupStore]
  | cons kv rest ih =>
    by_cases h : kv.1 = nm
    · simp [lookupStore, h]
    · simp [lookupStore, h, ih, Ne.symm h]

/-! ### Decimal representation lemmas -/

theorem digitChar_toNat (d : Nat) (h : d < 10) : (digitChar d).toNat = 48 + d := by
  rw [digitChar, charToNat_ofNat]
  omega

theorem decVal_append_digit (xs : Str) (d : Nat) (h : d < 10) :
    decVal (xs ++ [digitChar d]) = 10 * decVal xs + d := by
  rw [decVal, List.foldl_append]
  simp [decVal, digitChar_toNat d h]

theorem natToDecAux_val : ∀ fuel n, n < fuel → decVal (natToDecAux fuel n) = n := by
  intro fuel
  induction fuel with
  | zero => omega
  | succ fuel ih =>
    intro n hn
    by_cases h : n < 10
    · rw [natToDecAux, if_pos h]
      have : decVal [digitChar n] = n := by
        simp [decVal, digitChar_toNat n h]
      simpa using this
    · rw [natToDecAux, if_neg h]
      rw [decVal_append_digit _ _ (Nat.mod_lt n (by omega))]
      rw [ih (n / 10) (by omega)]
      omega

theorem natToDec_val (n : Nat) : decVal (natToDec n) = n :=
  natToDecAux_val (n + 1) n (Nat.lt_succ_self n)

theorem natToDec_inj {i j : Nat} (h : natToDec i = natToDec j) : i = j := by
  have := congrArg decVal h
  rwa [natToDec_val, natToDec_val] at this

theorem candName_inj (stem ext : Str) {i j : Nat}
    (h : candName stem ext i = candName stem ext j) : i = j := by
  rw [candName, candName] at h
  have h1 := List.append_cancel_left h
  have h2 : natToDec i ++ ext = natToDec j ++ ext := by
    injection h1
  exact natToDec_inj (List.append_cancel_right h2)

/-! ### Collision-loop lemmas -/

theorem exists_free (S : Store) (stem ext : Str) :
    ∃ j, 1 ≤ j ∧ j < S.length + 2 ∧ existsName S (candName stem ext j) = false := by
  by_contra hcon
  push_neg at hcon
  have hall : ∀ j, 1 ≤ j → j < S.length + 2 →
      existsName S (candName stem ext j) = true := by
    intro j h1 h2
    have := hcon j h1 h2
    revert this
    cases existsName S (candName stem ext j) <;> simp
  have hinj : Function.Injective (fun m : Nat => candName stem ext (m + 1)) := by
    intro a b hab
    have := candName_inj stem ext hab
    omega
  set L : List Str := (List.range (S.length + 1)).map
    (fun m => candName stem ext (m + 1)) with hL
  have hnd : L.Nodup := (List.nodup_range (S.length + 1)).map hinj
  have hsub : L ⊆ S.map Prod.fst := by
    intro x hx
    rw [hL, List.mem_map] at hx
    obtain ⟨m, hm, hxe⟩ := hx
    rw [List.mem_range] at hm
    have := hall (m + 1) (by omega) (by omega)
    rw [existsName] at this
    rw [← hxe]
    exact (lookupStore_isSome_iff_mem S _).mp this
  have hlen : L.length ≤ (S.map Prod.fst).length := (hnd.subperm hsub).length_le
  rw [hL] at hlen
  simp at hlen

theorem findFree_spec (S : Store) (stem ext : Str) :
    ∀ fuel n,
      (∃ j, n ≤ j ∧ j < n + fuel ∧ existsName S (candName stem ext j) = false) →
      existsName S (candName stem ext (findFree S stem ext fuel n)) = false ∧
      n ≤ findFree S stem ext fuel n ∧
      ∀ m, n ≤ m → m < findFree S stem ext fuel n →
        existsName S (candName stem ext m) = true := by
  intro fuel
  induction fuel with
  | zero =>
    intro n ⟨j, h1, h2, _⟩
    omega
  | succ fuel ih =>
    intro n hex
    by_cases h : existsName S (candName stem ext n) = true
    · rw [findFree, if_pos h]
      obtain ⟨j, hj1, hj2, hj3⟩ := hex
      have hjne : j ≠ n := by
        intro he
        rw [he] at hj3
        simp [h] at hj3
      have ⟨a, b, c⟩ := ih (n + 1) ⟨j, by omega, by omega, hj3⟩
      refine ⟨a, by omega, ?_⟩
      intro m hm1 hm2
      by_cases hmn : m = n
      · rwa [hmn]
      · exact c m (by omega) hm2
    · rw [findFree, if_neg h]
      refine ⟨by simpa using h, Nat.le_refl n, ?_⟩
      intro m hm1 hm2
      omega

/-! ### Claim C1: rule-1 priority of the Name Transformer -/

/-- C1: a (separator-free, as produced by the Normalizer) name whose
lowercase form matches the Roboflow export-suffix pattern `_<ext>.rf.` at
leftmost position `i` is transformed by rule 1 alone: the result is the text
before the matched segment plus `".tif"`, never the `.jpg` fallback or the
extension swap, even when the name also contains `".jpg"`. -/
theorem transformer_rule1_priority (bn : Str) (i : Nat)
    (hsep : ('/' : Char) ∉ bn)
    (h1 : rfMarkerAt ((lowerStr bn).drop i) = true)
    (h2 : ∀ j, j < i → rfMarkerAt ((lowerStr bn).drop j) = false) :
    _csv_name_to_tif bn = bn.take i ++ str ".tif" := by
  have hb : basename bn = bn := basename_eq_self_of bn hsep
  have hlen : i ≤ (lowerStr bn).length := by
    by_contra hgt
    rw [List.drop_eq_nil_of_le (by omega), rfMarkerAt_nil] at h1
    exact absurd h1 (by simp)
  have hf : findPos rfMarkerAt (lowerStr bn) = some i :=
    findPos_eq_some_of _ _ i hlen h1 h2
  unfold _csv_name_to_tif
  rw [hb, hf]

/-- Witness for C1 at the spec's scenario-1 name, which also contains the
substring `".jpg"` (at position 19). -/
theorem transformer_rule1_priority_witness :
    rfMarkerAt ((lowerStr (str "photo_jpg.rf.abc123.jpg")).drop 5) = true ∧
    jpgAt ((lowerStr (str "photo_jpg.rf.abc123.jpg")).drop 19) = true ∧
    _csv_name_to_tif (str "photo_jpg.rf.abc123.jpg") =
      (str "photo_jpg.rf.abc123.jpg").take 5 ++ str ".tif" :=
  ⟨by decide, by decide,
    transformer_rule1_priority (str "photo_jpg.rf.abc123.jpg") 5
      (by decide) (by decide) (by decide)⟩

/-! ### Claim C6: first-occurrence `.jpg` fallback -/

/-- C6: a (separator-free) name that matches the export-suffix pattern
nowhere but contains `".jpg"` (case-insensitively) with first occurrence at
position `i` transforms to the text before that occurrence plus `".tif"`. -/
theorem transformer_jpg_fallback (bn : Str) (i : Nat)
    (hsep : ('/' : Char) ∉ bn)
    (hrf : ∀ j, j ≤ (lowerStr bn).length →
      rfMarkerAt ((lowerStr bn).drop j) = false)
    (h1 : jpgAt ((lowerStr bn).drop i) = true)
    (h2 : ∀ j, j < i → jpgAt ((lowerStr bn).drop j) = false) :
    _csv_name_to_tif bn = bn.take i ++ str ".tif" := by
  have hb : basename bn = bn := basename_eq_self_of bn hsep
  have hlen : i ≤ (lowerStr bn).length := by
    by_contra hgt
    rw [List.drop_eq_nil_of_le (by omega), jpgAt_nil] at h1
    exact absurd h1 (by simp)
  have hrfAll : ∀ j, rfMarkerAt ((lowerStr bn).drop j) = false := by
    intro j
    by_cases hj : j ≤ (lowerStr bn).length
    · exact hrf j hj
    · rw [List.drop_eq_nil_of_le (by omega), rfMarkerAt_nil]
  have hn : findPos rfMarkerAt (lowerStr bn) = none :=
    findPos_eq_none_of _ _ hrfAll
  have hf : findPos jpgAt (lowerStr bn) = some i :=
    findPos_eq_some_of _ _ i hlen h1 h2
  unfold _csv_name_to_tif
  rw [hb, hn, hf]

/-- Witness for C6 at the spec's scenario-2 name `shot.jpg`. -/
theorem transformer_jpg_fallback_witness :
    jpgAt ((lowerStr (str "shot.jpg")).drop 4) = true ∧
    _csv_name_to_tif (str "shot.jpg") = str "shot.tif" :=
  ⟨by decide, by
    have h := transformer_jpg_fallback (str "shot.jpg") 4
      (by decide) (by decide) (by decide) (by decide)
    simpa using h⟩

/-! ### Claim C9: every transformer output ends in `.tif` -/

/-- C9: for every input whatsoever, the Name Transformer's output ends in
the canonical target extension `".tif"`: all three branches append it. -/
theorem transformer_appends_tif (bn : Str) :
    str ".tif" <:+ _csv_name_to_tif bn := by
  unfold _csv_name_to_tif
  cases h1 : findPos rfMarkerAt (lowerStr (basename bn)) with
  | some i => exact ⟨(basename bn).take i, rfl⟩
  | none =>
    cases h2 : findPos jpgAt (lowerStr (basename bn)) with
    | some i => exact ⟨(basename bn).take i, rfl⟩
    | none => exact ⟨(splitext (basename bn)).1, rfl⟩

/-! ### Claim C3: the Resolver makes exactly one alternate-extension retry -/

/-- C3: the Resolver returns the direct lookup when it is non-empty; when it
is empty and the target ends in `".tif"` it returns exactly the one retry
lookup with `".tiff"` substituted; when it is empty and the target does not
end in `".tif"` no further lookup happens and the result is empty. -/
theorem resolver_single_retry (idx : Index) (t : Str) :
    (lookupIdx idx t ≠ [] → resolve idx t = lookupIdx idx t) ∧
    (lookupIdx idx t = [] → List.isSuffixOf (str ".tif") t = true →
      resolve idx t = lookupIdx idx (t.take (t.length - 4) ++ str ".tiff")) ∧
    (lookupIdx idx t = [] → List.isSuffixOf (str ".tif") t = false →
      resolve idx t = []) := by
  refine ⟨?_, ?_, ?_⟩
  · intro h
    have he : (lookupIdx idx t).isEmpty = false := by
      cases hc : lookupIdx idx t
      · exact absurd hc h
      · rfl
    simp [resolve, he]
  · intro h hs
    have he : (lookupIdx idx t).isEmpty = true := by rw [h]; rfl
    simp [resolve, he, hs]
  · intro h hs
    have he : (lookupIdx idx t).isEmpty = true := by rw [h]; rfl
    simp [resolve, he, hs, h]

/-- Witness for C3: with an index holding only `a.tiff`, resolving `a.tif`
takes the single `.tiff` retry. -/
theorem resolver_single_retry_witness :
    lookupIdx [(str "a.tiff", [str "r/a.tiff"])] (str "a.tif") = [] ∧
    resolve [(str "a.tiff", [str "r/a.tiff"])] (str "a.tif") =
      lookupIdx [(str "a.tiff", [str "r/a.tiff"])]
        ((str "a.tif").take ((str "a.tif").length - 4) ++ str ".tiff") :=
  ⟨by decide,
    (resolver_single_retry [(str "a.tiff", [str "r/a.tiff"])] (str "a.tif")).2.1
      (by decide) (by decide)⟩

/-! ### Claim C2: collision policy of the Copy Engine -/

/-- C2: when overwrite is disabled and the destination already holds a file
at the proposed name, the copy goes to `stem_<k>ext` for the *first*
`k = 1, 2, 3, ...` whose name is free, the pre-existing file is untouched,
and the copied content lands at the new name; with overwrite enabled the
existing file is replaced unconditionally. -/
theorem copy_collision_policy (S : Store) (nm c v : Str)
    (h1 : lookupStore S nm = some v) :
    (∃ k, 1 ≤ k ∧
      destName S false nm = candName (splitext nm).1 (splitext nm).2 k ∧
      lookupStore S (candName (splitext nm).1 (splitext nm).2 k) = none ∧
      (∀ j, 1 ≤ j → j < k →
        (lookupStore S (candName (splitext nm).1 (splitext nm).2 j)).isSome = true)) ∧
    lookupStore (copyOne S false nm c) nm = some v ∧
    lookupStore (copyOne S false nm c) (destName S false nm) = some c ∧
    lookupStore (copyOne S true nm c) nm = some c := by
  have hex : existsName S nm = true := by rw [existsName, h1]; rfl
  obtain ⟨j0, hj1, hj2, hj3⟩ := exists_free S (splitext nm).1 (splitext nm).2
  have hspec := findFree_spec S (splitext nm).1 (splitext nm).2 (S.length + 1) 1
    ⟨j0, hj1, by omega, hj3⟩
  set k := findFree S (splitext nm).1 (splitext nm).2 (S.length + 1) 1 with hk
  obtain ⟨hfree, hge, hmin⟩ := hspec
  have hdest : destName S false nm = candName (splitext nm).1 (splitext nm).2 k := by
    rw [destName, if_pos ⟨rfl, hex⟩]
  have hnone : lookupStore S (candName (splitext nm).1 (splitext nm).2 k) = none := by
    rw [existsName] at hfree
    exact Option.not_isSome_iff_eq_none.mp (by simp [hfree])
  have hne : nm ≠ candName (splitext nm).1 (splitext nm).2 k := by
    intro he
    rw [← he, h1] at hnone
    exact Option.noConfusion hnone
  refine ⟨⟨k, hge, hdest, hnone, ?_⟩, ?_, ?_, ?_⟩
  · intro j hjl hju
    rw [← existsName]
    exact hmin j hjl hju
  · rw [copyOne, hdest, lookupStore_set_ne S _ c nm hne]
    exact h1
  · rw [copyOne, hdest, lookupStore_set_self]
  · have hdt : destName S true nm = nm := by
      rw [destName, if_neg]
      intro hcon
      exact Bool.noConfusion hcon.1
    rw [copyOne, hdt, lookupStore_set_self]

/-- Witness for C2 at the spec's scenario: destination already holds
`img.tif`; the copy lands at `img_1.tif` and `img.tif` keeps its content. -/
theorem copy_collision_policy_witness :
    lookupStore [(str "img.tif", str "old")] (str "img.tif") = some (str "old") ∧
    ((∃ k, 1 ≤ k ∧
      destName [(str "img.tif", str "old")] false (str "img.tif") =
        candName (splitext (str "img.tif")).1 (splitext (str "img.tif")).2 k ∧
      lookupStore [(str "img.tif", str "old")]
        (candName (splitext (str "img.tif")).1 (splitext (str "img.tif")).2 k) = none ∧
      (∀ j, 1 ≤ j → j < k →
        (lookupStore [(str "img.tif", str "old")]
          (candName (splitext (str "img.tif")).1 (splitext (str "img.tif")).2 j)).isSome
            = true)) ∧
    lookupStore (copyOne [(str "img.tif", str "old")] false (str "img.tif") (str "new"))
      (str "img.tif") = some (str "old") ∧
    lookupStore (copyOne [(str "img.tif", str "old")] false (str "img.tif") (str "new"))
      (destName [(str "img.tif", str "old")] false (str "img.tif")) = some (str "new") ∧
    lookupStore (copyOne [(str "img.tif", str "old")] true (str "img.tif") (str "new"))
      (str "img.tif") = some (str "new")) :=
  ⟨by decide,
    copy_collision_policy [(str "img.tif", str "old")] (str "img.tif")
      (str "new") (str "old") (by decide)⟩

/-! ### Claim C4: keys of the filename index -/

theorem insertIdx_inv (ci : Bool) (idx : Index) (k p : Str)
    (hidx : ∀ k0 ps, (k0, ps) ∈ idx → ∀ q ∈ ps, lowerIf ci (basename q) = k0)
    (hkp : lowerIf ci (basename p) = k) :
    ∀ k0 ps, (k0, ps) ∈ insertIdx idx k p → ∀ q ∈ ps, lowerIf ci (basename q) = k0 := by
  induction idx with
  | nil =>
    intro k0 ps hmem q hq
    rw [insertIdx] at hmem
    simp at hmem
    obtain ⟨he1, he2⟩ := hmem
    rw [he2] at hq
    simp at hq
    rw [hq, he1]
    exact hkp
  | cons kv rest ih =>
    intro k0 ps hmem q hq
    obtain ⟨k1, ps1⟩ := kv
    by_cases h : k1 = k
    · rw [insertIdx, if_pos h] at hmem
      rcases List.mem_cons.mp hmem with hhd | htl
      · injection hhd with hk0 hps
        rw [hps] at hq
        rcases List.mem_append.mp hq with hq1 | hq2
        · rw [hk0]
          exact hidx k1 ps1 (List.mem_cons_self _ _) q hq1
        · rw [hk0, h, List.mem_singleton.mp hq2]
          exact hkp
      · exact hidx k0 ps (List.mem_cons_of_mem _ htl) q hq
    · rw [insertIdx, if_neg h] at hmem
      rcases List.mem_cons.mp hmem with hhd | htl
      · injection hhd with hk0 hps
        rw [hk0]
        exact hidx k1 ps1 (List.mem_cons_self _ _) q (by rw [← hps]; exact hq)
      · exact ih (fun k2 ps2 hm => hidx k2 ps2 (List.mem_cons_of_mem _ hm))
          k0 ps htl q hq

theorem filesFold_inv (ci : Bool) (root : Str) :
    ∀ (files : List Str) (idx : Index),
      (∀ k0 ps, (k0, ps) ∈ idx → ∀ q ∈ ps, lowerIf ci (basename q) = k0) →
      (∀ f ∈ files, ('/' : Char) ∉ f) →
      ∀ k0 ps,
        (k0, ps) ∈ files.foldl
          (fun idx2 f => insertIdx idx2 (lowerIf ci f) (joinPath root f)) idx →
        ∀ q ∈ ps, lowerIf ci (basename q) = k0 := by
  intro files
  induction files with
  | nil => intro idx hidx _ ; simpa using hidx
  | cons f fs ih =>
    intro idx hidx hwf
    rw [List.foldl_cons]
    refine ih _ ?_ (fun g hg => hwf g (List.mem_cons_of_mem _ hg))
    refine insertIdx_inv ci idx _ _ hidx ?_
    rw [basename_joinPath root f (hwf f (List.mem_cons_self _ _))]

theorem walkFold_inv (ci : Bool) :
    ∀ (entries : List (Str × List Str)) (idx : Index),
      (∀ k0 ps, (k0, ps) ∈ idx → ∀ q ∈ ps, lowerIf ci (basename q) = k0) →
      (∀ pr ∈ entries, ∀ f ∈ pr.2, ('/' : Char) ∉ f) →
      ∀ k0 ps,
        (k0, ps) ∈ entries.foldl
          (fun idx pr =>
            pr.2.foldl (fun idx2 f => insertIdx idx2 (lowerIf ci f) (joinPath pr.1 f)) idx)
          idx →
        ∀ q ∈ ps, lowerIf ci (basename q) = k0 := by
  intro entries
  induction entries with
  | nil => intro idx hidx _ ; simpa using hidx
  | cons pr prs ih =>
    intro idx hidx hwf
    rw [List.foldl_cons]
    refine ih _ ?_ (fun e he => hwf e (List.mem_cons_of_mem _ he))
    exact filesFold_inv ci pr.1 pr.2 idx hidx
      (hwf pr (List.mem_cons_self _ _))

/-- C4 (amended): for every root, every key `k` of the index built by the
Filesystem Indexer and every path `p` stored under it,
`lowerIf ci (basename p) = k` — the indexer applies only the case-folding
part of the Name Normalizer to the file's basename, not the
whitespace/quote stripping.  The well-formedness hypothesis states that
walked filenames contain no path separator, as on a real filesystem. -/
theorem index_key_invariant (search_path : Str) (ci : Bool) (t : FSTree)
    (hwf : ∀ pr ∈ walk search_path t, ∀ f ∈ pr.2, ('/' : Char) ∉ f) :
    ∀ k ps, (k, ps) ∈ build_filename_index search_path ci t →
      ∀ p ∈ ps, lowerIf ci (basename p) = k := by
  rw [build_filename_index, buildIndexFromWalk]
  exact walkFold_inv ci (walk search_path t) [] (by simp) hwf

/-- Witness for C4 at a one-file tree. -/
theorem index_key_invariant_witness :
    (∀ pr ∈ walk (str "root") (FSTree.dir (str "r") true [str "Photo.TIF"] FSForest.nil),
      ∀ f ∈ pr.2, ('/' : Char) ∉ f) ∧
    (str "photo.tif", [joinPath (str "root") (str "Photo.TIF")]) ∈
      build_filename_index (str "root") true
        (FSTree.dir (str "r") true [str "Photo.TIF"] FSForest.nil) ∧
    lowerIf true (basename (joinPath (str "root") (str "Photo.TIF"))) = str "photo.tif" :=
  ⟨by decide, by decide,
    index_key_invariant (str "root") true
      (FSTree.dir (str "r") true [str "Photo.TIF"] FSForest.nil) (by decide)
      (str "photo.tif") [joinPath (str "root") (str "Photo.TIF")] (by decide)
      (joinPath (str "root") (str "Photo.TIF")) (by decide)⟩

/-- Counterexample to C4 as stated: with a file named `" a.tif"` (leading
space), the index key is the lowercased filename `" a.tif"`, but the full
Name Normalizer strips the leading space from the basename, so
`_normalize (basename p) = "a.tif" ≠ k`. -/
theorem index_key_invariant_counterexample :
    (([' ', 'a', '.', 't', 'i', 'f'] : Str),
      [joinPath (str "root") [' ', 'a', '.', 't', 'i', 'f']]) ∈
      build_filename_index (str "root") true
        (FSTree.dir (str "r") true [[' ', 'a', '.', 't', 'i', 'f']] FSForest.nil) ∧
    _normalize (basename (joinPath (str "root") [' ', 'a', '.', 't', 'i', 'f'])) true ≠
      ([' ', 'a', '.', 't', 'i', 'f'] : Str) :=
  ⟨by decide, by decide⟩

/-! ### Claim C5: idempotence of the Name Normalizer -/

theorem toLower_ne_char (c d : Char) (hd : d.toNat < 97) (h : c ≠ d) :
    Char.toLower c ≠ d := by
  intro he
  have h2 : (Char.toLower c).toNat = d.toNat := by rw [he]
  have h3 : c.toNat ≠ d.toNat := fun hn => h ((char_eq_iff c d).mpr hn)
  exact toLower_toNat_ne hd h3 h2

/-- Counterexample to C5 as stated: for the raw name `"␣a"` (a quoted,
space-padded name), whitespace is stripped *before* the quotes, so the
first normalization leaves the interior space exposed (`␣a`) and a second
normalization strips it (`a`): `normalize` is not idempotent on all
strings. -/
theorem normalize_idempotent_counterexample :
    _normalize (_normalize [dquote, ' ', 'a', dquote] true) true ≠
      _normalize [dquote, ' ', 'a', dquote] true := by decide

/-- C5 (amended): the Name Normalizer is idempotent on every input that
contains no quote character and no path separator; on general strings a
quote layer can shield interior whitespace from the earlier whitespace
strip (and a directory prefix can shield characters from the strips), so
a second application can strip further. -/
theorem normalize_idempotent (nm : Str) (ci : Bool)
    (hq : ∀ c ∈ nm, c ≠ dquote ∧ c ≠ squote)
    (hs : ('/' : Char) ∉ nm) :
    _normalize (_normalize nm ci) ci = _normalize nm ci := by
  have hsubW : ∀ c ∈ stripWs nm, c ∈ nm := fun c hc => mem_stripBoth _ nm hc
  have hqd : ∀ x ∈ stripWs nm, decide (x = dquote) = false := by
    intro x hx
    simp only [decide_eq_false_iff_not]
    exact (hq x (hsubW x hx)).1
  have hqs : ∀ x ∈ stripWs nm, decide (x = squote) = false := by
    intro x hx
    simp only [decide_eq_false_iff_not]
    exact (hq x (hsubW x hx)).2
  have hsW : ('/' : Char) ∉ stripWs nm := fun hc => hs (hsubW _ hc)
  have e1 : stripBoth (fun c => decide (c = dquote)) (stripWs nm) = stripWs nm :=
    stripBoth_eq_self_of _ _ hqd
  have e2 : stripBoth (fun c => decide (c = squote)) (stripWs nm) = stripWs nm :=
    stripBoth_eq_self_of _ _ hqs
  have e3 : basename (stripWs nm) = stripWs nm := basename_eq_self_of _ hsW
  have eN : _normalize nm ci = lowerIf ci (stripWs nm) := by
    rw [_normalize, e1, e2, e3]
  have hWidem : stripWs (stripWs nm) = stripWs nm := by
    rw [stripWs, stripWs]
    exact stripBoth_idem _ nm
  rw [eN]
  cases ci with
  | false =>
    simp only [lowerIf, Bool.false_eq_true, if_false]
    rw [_normalize, hWidem, e1, e2, e3]
    simp [lowerIf]
  | true =>
    simp only [lowerIf, if_true]
    have hcomp : (fun c => Char.isWhitespace (Char.toLower c)) = Char.isWhitespace :=
      funext isWhitespace_toLower
    have stepA : stripWs (lowerStr (stripWs nm)) = lowerStr (stripWs nm) := by
      rw [stripWs, lowerStr, stripBoth_map, hcomp]
      rw [show stripBoth Char.isWhitespace (stripWs nm) = stripWs nm from hWidem]
    have memX : ∀ x ∈ lowerStr (stripWs nm), ∃ c, c ∈ nm ∧ x = Char.toLower c := by
      intro x hx
      rw [lowerStr, List.mem_map] at hx
      obtain ⟨c, hc, he⟩ := hx
      exact ⟨c, hsubW c hc, he.symm⟩
    have e1X : stripBoth (fun c => decide (c = dquote)) (lowerStr (stripWs nm))
        = lowerStr (stripWs nm) := by
      refine stripBoth_eq_self_of _ _ ?_
      intro x hx
      obtain ⟨c, hc, he⟩ := memX x hx
      simp only [decide_eq_false_iff_not, he]
      exact toLower_ne_char c dquote (by decide) (hq c hc).1
    have e2X : stripBoth (fun c => decide (c = squote)) (lowerStr (stripWs nm))
        = lowerStr (stripWs nm) := by
      refine stripBoth_eq_self_of _ _ ?_
      intro x hx
      obtain ⟨c, hc, he⟩ := memX x hx
      simp only [decide_eq_false_iff_not, he]
      exact toLower_ne_char c squote (by decide) (hq c hc).2
    have e3X : basename (lowerStr (stripWs nm)) = lowerStr (stripWs nm) := by
      refine basename_eq_self_of _ ?_
      intro hc
      obtain ⟨c, hcm, he⟩ := memX '/' hc
      exact toLower_ne_char c '/' (by decide) (fun hce => hs (hce ▸ hcm)) he.symm
    rw [_normalize, stepA, e1X, e2X, e3X]
    simp only [lowerIf, if_true]
    rw [lowerStr, lowerStr, List.map_map]
    rw [show Char.toLower ∘ Char.toLower = Char.toLower from funext toLower_idem]

/-- Witness for the amended C5 on a quote-free, separator-free mixed-case
padded name. -/
theorem normalize_idempotent_witness :
    (∀ c ∈ str " Ab.TIF ", c ≠ dquote ∧ c ≠ squote) ∧
    _normalize (_normalize (str " Ab.TIF ") true) true =
      _normalize (str " Ab.TIF ") true :=
  ⟨by decide,
    normalize_idempotent (str " Ab.TIF ") true (by decide) (by decide)⟩

/-! ### Claim C7: CSV column selection and configuration error -/

theorem isLikely_ne_nil (c : Str) (h : isLikelyColumn c = true) : c ≠ [] := by
  intro he
  rw [he] at h
  exact absurd h (by decide)

theorem pickFallback_none_iff (fs : List Str) :
    pickFallback fs = none ↔ fs.find? isLikelyColumn = none ∧ fs = [] := by
  rw [pickFallback]
  cases hf : fs.find? isLikelyColumn with
  | some c => simp
  | none => simp [List.head?_eq_none_iff]

theorem useCol_eq_fallback (column : Option Str) (fs : List Str)
    (hmiss : ∀ c, column = some c → ¬(c ≠ [] ∧ c ∈ fs)) :
    useCol column fs = pickFallback fs := by
  cases column with
  | none => rfl
  | some c =>
    rw [useCol, if_neg (hmiss c rfl)]

/-- C7 (amended): with a detected header, the target column is chosen by
(i) a non-empty configured name present among the stripped headers, then
(ii) the first header case-insensitively equal to `"filename"`, then
(iii) the first header; and the `ValueError` is raised exactly when the
header list is empty or when the fall-through selection picks an
empty-named first header (Python treats the empty string as no column).
An extraction error propagates before any indexing or copying runs. -/
theorem chooseColumn_selection (column : Option Str) (raw : List Str) :
    (∀ c, column = some c → c ≠ [] → c ∈ raw.map stripWs →
      chooseColumn column raw = Except.ok c) ∧
    ((∀ c, column = some c → ¬(c ≠ [] ∧ c ∈ raw.map stripWs)) →
      ∀ c, (raw.map stripWs).find? isLikelyColumn = some c →
        chooseColumn column raw = Except.ok c) ∧
    ((∀ c, column = some c → ¬(c ≠ [] ∧ c ∈ raw.map stripWs)) →
      (raw.map stripWs).find? isLikelyColumn = none →
      ∀ c0 rest, raw.map stripWs = c0 :: rest → c0 ≠ [] →
        chooseColumn column raw = Except.ok c0) ∧
    (chooseColumn column raw = Except.error () ↔
      (raw.map stripWs = [] ∨
        ((∀ c, column = some c → ¬(c ≠ [] ∧ c ∈ raw.map stripWs)) ∧
          (raw.map stripWs).find? isLikelyColumn = none ∧
          (raw.map stripWs).head? = some []))) ∧
    (∀ ci ov sp t dest,
      findAndCopyE (Except.error ()) ci ov sp t dest = Except.error ()) := by
  refine ⟨?_, ?_, ?_, ?_, fun ci ov sp t dest => rfl⟩
  · intro c hcol hne hmem
    have hu : useCol column (raw.map stripWs) = some c := by
      rw [hcol, useCol, if_pos ⟨hne, hmem⟩]
    rw [chooseColumn, hu]
    show (if c = [] then (Except.error () : Except Unit Str) else Except.ok c) =
      Except.ok c
    exact if_neg hne
  · intro hmiss c hfind
    have hu : useCol column (raw.map stripWs) = some c := by
      rw [useCol_eq_fallback column _ hmiss, pickFallback, hfind]
    rw [chooseColumn, hu]
    show (if c = [] then (Except.error () : Except Unit Str) else Except.ok c) =
      Except.ok c
    exact if_neg (isLikely_ne_nil c (List.find?_some hfind))
  · intro hmiss hfind c0 rest hfs hne
    have hu : useCol column (raw.map stripWs) = some c0 := by
      rw [useCol_eq_fallback column _ hmiss, pickFallback, hfind, hfs]
      rfl
    rw [chooseColumn, hu]
    show (if c0 = [] then (Except.error () : Except Unit Str) else Except.ok c0) =
      Except.ok c0
    exact if_neg hne
  · constructor
    · intro herr
      cases hu : useCol column (raw.map stripWs) with
      | none =>
        have hpf : pickFallback (raw.map stripWs) = none := by
          cases column with
          | none => exact hu
          | some c =>
            rw [useCol] at hu
            by_cases hc : c ≠ [] ∧ c ∈ raw.map stripWs
            · rw [if_pos hc] at hu
              exact Option.noConfusion hu
            · rwa [if_neg hc] at hu
        exact Or.inl ((pickFallback_none_iff _).mp hpf).2
      | some c =>
        rw [chooseColumn, hu] at herr
        by_cases hc : c = []
        · subst hc
          have hmiss : ∀ c, column = some c → ¬(c ≠ [] ∧ c ∈ raw.map stripWs) := by
            intro c' hcol hcon
            rw [hcol, useCol, if_pos hcon] at hu
            exact hcon.1 (Option.some.inj hu)
          have hpf : pickFallback (raw.map stripWs) = some [] := by
            rw [← useCol_eq_fallback column _ hmiss]
            exact hu
          rw [pickFallback] at hpf
          cases hf : (raw.map stripWs).find? isLikelyColumn with
          | some c1 =>
            rw [hf] at hpf
            exact absurd (Option.some.inj hpf) (isLikely_ne_nil c1 (List.find?_some hf))
          | none =>
            rw [hf] at hpf
            exact Or.inr ⟨hmiss, rfl, hpf⟩
        · have herr2 : (if c = [] then (Except.error () : Except Unit Str)
              else Except.ok c) = Except.error () := herr
          rw [if_neg hc] at herr2
          exact Except.noConfusion herr2
    · intro hrhs
      rcases hrhs with hnil | ⟨hmiss, hfind, hhead⟩
      · have hmiss : ∀ c, column = some c → ¬(c ≠ [] ∧ c ∈ raw.map stripWs) := by
          intro c _ hcon
          rw [hnil] at hcon
          exact absurd hcon.2 (List.not_mem_nil c)
        have hu : useCol column (raw.map stripWs) = none := by
          rw [useCol_eq_fallback column _ hmiss]
          exact (pickFallback_none_iff _).mpr ⟨by rw [hnil]; rfl, hnil⟩
        rw [chooseColumn, hu]
      · have hu : useCol column (raw.map stripWs) = some [] := by
          rw [useCol_eq_fallback column _ hmiss, pickFallback, hfind]
          exact hhead
        rw [chooseColumn, hu]
        rfl

/-- Witness for the amended C7: a configured, present column wins. -/
theorem chooseColumn_selection_witness :
    chooseColumn (some (str "path")) [str " path ", str "filename"] =
      Except.ok (str "path") :=
  (chooseColumn_selection (some (str "path")) [str " path ", str "filename"]).1
    (str "path") rfl (by decide) (by decide)

/-- Counterexample to C7 as stated: with stripped headers `["", "data"]`
(no configured column), a usable non-empty column `"data"` exists, yet the
code selects the empty first header and raises the configuration error
instead of using any column. -/
theorem chooseColumn_counterexample :
    chooseColumn none [[], str "data"] = Except.error () ∧
    str "data" ∈ ([[], str "data"] : List Str).map stripWs ∧
    (str "data" : Str) ≠ [] :=
  ⟨rfl, by decide, by decide⟩

/-! ### Claim C8: indexer error tolerance -/

/-- Counterexample to C8 as stated: with the root directory itself
unreadable (but containing a file), the indexer raises nothing — it
completes and returns the empty index, because `os.walk` with its default
`onerror=None` swallows the root's `scandir` error exactly as it swallows
subdirectory errors, and the function body contains no `raise`. -/
theorem indexer_unreadable_root_counterexample :
    buildFilenameIndexE (str "root") true
      (FSTree.dir (str "r") false [str "a.tif"] FSForest.nil) = Except.ok [] ∧
    ∀ e : Unit, buildFilenameIndexE (str "root") true
      (FSTree.dir (str "r") false [str "a.tif"] FSForest.nil) ≠ Except.error e :=
  ⟨rfl, fun _e h => Except.noConfusion h⟩

/-- C8 (amended): the Filesystem Indexer never raises at all — traversal
errors are tolerated uniformly: the whole scan always completes and returns
an index; an unreadable directory (the root included) contributes nothing,
and an unreadable subdirectory is skipped while the scan of its siblings
and the rest of the tree completes, the affected branch simply absent. -/
theorem indexer_error_tolerance :
    (∀ sp ci t, buildFilenameIndexE sp ci t =
      Except.ok (build_filename_index sp ci t)) ∧
    (∀ p nm fl sb, walk p (FSTree.dir nm false fl sb) = []) ∧
    (∀ p nm fl sb rest,
      walkForest p (FSForest.cons (FSTree.dir nm false fl sb) rest) =
        walkForest p rest) := by
  refine ⟨fun sp ci t => rfl, fun p nm fl sb => by rw [walk]; simp, ?_⟩
  intro p nm fl sb rest
  rw [walkForest, walk]
  simp

/-! ### Claim C10: empty extraction leaves the destination untouched -/

/-- C10: when the CSV extractor yields no names, the pipeline returns at
once: the destination store is returned unchanged, zero copies are
reported, and the effect log is empty — no index build, no directory
creation, no copy. -/
theorem empty_extraction_no_effects (raw : List Str) (ci ov : Bool)
    (sp : Str) (t : FSTree) (dest : Store) (h : raw = []) :
    find_and_copy_from_csv raw ci ov sp t dest = (dest, 0, []) := by
  rw [find_and_copy_from_csv, if_pos h]

/-- Witness for C10 with a non-trivial destination and tree. -/
theorem empty_extraction_no_effects_witness :
    find_and_copy_from_csv [] true false (str "root")
      (FSTree.dir (str "r") true [str "a.tif"] FSForest.nil)
      [(str "keep.tif", str "old")] = ([(str "keep.tif", str "old")], 0, []) :=
  empty_extraction_no_effects [] true false (str "root")
    (FSTree.dir (str "r") true [str "a.tif"] FSForest.nil)
    [(str "keep.tif", str "old")] rfl
